import Mathlib

/-!
Verification of the glue logic of the notebook
`examples/quantum_annealing/Running_large_problems_using_QBSolv.ipynb`.

The notebook builds a QUBO coefficient table from the edges of a random
graph, computes one minor-embedding for a complete graph of size
`solver_limit`, and hands the table with fixed parameters to an external
hybrid solver.  We embed the table (a Python `defaultdict(int)` keyed by
tuples), the accumulation loop, the configuration constants, and the
straight-line sequence of external calls, and prove the claimed
properties about them.
-/

set_option autoImplicit false

/-- A node index of the problem graph. -/
abbrev Node := Nat

/-- An edge of the graph as iterated by `Graph.edges`: an ordered pair of
node indices (networkx yields each undirected edge in one orientation). -/
abbrev Edge := Node × Node

/-- The QUBO coefficient table, modelling the Python
`QUBO = defaultdict(int)`: an insertion-ordered association list from
tuple keys to integer values.  A key is present only once. -/
abbrev Table := List (Edge × Int)

/-- Dictionary lookup with the `defaultdict(int)` default: the value
stored at the first occurrence of the key, or `0` when the key is absent. -/
def getQ : Table → Edge → Int
  | [], _ => 0
  | (k, x) :: t, q => if k = q then x else getQ t q

/-- The list of keys present in the table, in insertion order. -/
def keys (t : Table) : List Edge := t.map Prod.fst

/-- Key presence: whether the dictionary holds an explicit entry for `q`
(as opposed to merely answering the default `0`). -/
def hasKey (t : Table) (q : Edge) : Prop := q ∈ keys t

instance (t : Table) (q : Edge) : Decidable (hasKey t q) := by
  unfold hasKey; infer_instance

/-- `QUBO[k] += d` on a `defaultdict(int)`: update the entry in place when
the key is present, otherwise append a fresh entry holding `0 + d`. -/
def addQ : Table → Edge → Int → Table
  | [], q, d => [(q, d)]
  | (k, x) :: t, q, d => if k = q then (k, x + d) :: t else (k, x) :: addQ t q d

/-- One iteration of the accumulation loop of the notebook, for the edge
`(u, v)`:
`QUBO[(u,u)] += -1`, `QUBO[(v,v)] += -3`, `QUBO[(u,v)] += 2`. -/
def processEdge (t : Table) (e : Edge) : Table :=
  addQ (addQ (addQ t (e.1, e.1) (-1)) (e.2, e.2) (-3)) (e.1, e.2) 2

/-- The whole loop: fold `processEdge` over the edge list, starting from
the empty (all-default, all-zero) table. -/
def buildQUBO (E : List Edge) : Table := E.foldl processEdge []

/-- Net contribution of the single edge `e` to the table entry at key `q`. -/
def contrib (e : Edge) (q : Edge) : Int :=
  (if q = (e.1, e.1) then -1 else 0)
    + (if q = (e.2, e.2) then -3 else 0)
    + (if q = (e.1, e.2) then 2 else 0)

/-- Number of edges of the list whose first component is `u`. -/
def countFst (E : List Edge) (u : Node) : Nat := E.countP (fun e => e.1 == u)

/-- Number of edges of the list whose second component is `u`. -/
def countSnd (E : List Edge) (u : Node) : Nat := E.countP (fun e => e.2 == u)

/-- Sum of all values stored in the table. -/
def totalQ (t : Table) : Int := (t.map Prod.snd).sum

theorem getQ_addQ (t : Table) (k q : Edge) (d : Int) :
    getQ (addQ t k d) q = getQ t q + (if q = k then d else 0) := by
  induction t with
  | nil =>
    simp only [addQ, getQ]
    by_cases h : k = q
    · subst h; simp
    · simp [h, Ne.symm h]
  | cons hd tl ih =>
    obtain ⟨k₀, x⟩ := hd
    by_cases h : k₀ = k
    · subst h
      simp only [addQ, if_pos rfl, getQ]
      by_cases h₂ : k₀ = q
      · subst h₂; simp
      · simp [h₂, Ne.symm h₂]
    · simp only [addQ, if_neg h, getQ]
      by_cases h₂ : k₀ = q
      · subst h₂
        simp [h]
      · simp [h₂, ih]

theorem getQ_processEdge (t : Table) (e q : Edge) :
    getQ (processEdge t e) q = getQ t q + contrib e q := by
  simp only [processEdge, getQ_addQ, contrib]
  ring

theorem getQ_foldl (E : List Edge) (t : Table) (q : Edge) :
    getQ (E.foldl processEdge t) q
      = getQ t q + (E.map (fun e => contrib e q)).sum := by
  induction E generalizing t with
  | nil => simp
  | cons e E ih =>
    simp only [List.foldl_cons, List.map_cons, List.sum_cons, ih,
      getQ_processEdge]
    ring

theorem getQ_buildQUBO (E : List Edge) (q : Edge) :
    getQ (buildQUBO E) q = (E.map (fun e => contrib e q)).sum := by
  simp [buildQUBO, getQ_foldl, getQ]

theorem hasKey_addQ (t : Table) (k q : Edge) (d : Int) :
    hasKey (addQ t k d) q ↔ hasKey t q ∨ q = k := by
  induction t with
  | nil => simp [addQ, hasKey, keys]
  | cons hd tl ih =>
    obtain ⟨k₀, x⟩ := hd
    by_cases h : k₀ = k
    · subst h
      have hstep : addQ ((k₀, x) :: tl) k₀ d = (k₀, x + d) :: tl := by
        simp [addQ]
      rw [hstep]
      simp only [hasKey, keys, List.map_cons, List.mem_cons]
      tauto
    · simp only [addQ, if_neg h]
      simp only [hasKey, keys, List.map_cons, List.mem_cons] at ih ⊢
      rw [ih]
      tauto

theorem hasKey_processEdge (t : Table) (e q : Edge) :
    hasKey (processEdge t e) q
      ↔ hasKey t q ∨ q = (e.1, e.1) ∨ q = (e.2, e.2) ∨ q = (e.1, e.2) := by
  simp only [processEdge, hasKey_addQ]
  tauto

theorem hasKey_foldl (E : List Edge) (t : Table) (q : Edge) :
    hasKey (E.foldl processEdge t) q
      ↔ hasKey t q ∨ ∃ e ∈ E, q = (e.1, e.1) ∨ q = (e.2, e.2) ∨ q = (e.1, e.2) := by
  induction E generalizing t with
  | nil => simp
  | cons e E ih =>
    simp only [List.foldl_cons, ih, hasKey_processEdge, List.mem_cons]
    constructor
    · rintro ((h | h) | ⟨f, hf, hq⟩)
      · exact Or.inl h
      · exact Or.inr ⟨e, Or.inl rfl, h⟩
      · exact Or.inr ⟨f, Or.inr hf, hq⟩
    · rintro (h | ⟨f, (rfl | hf), hq⟩)
      · exact Or.inl (Or.inl h)
      · exact Or.inl (Or.inr hq)
      · exact Or.inr ⟨f, hf, hq⟩

theorem hasKey_buildQUBO (E : List Edge) (q : Edge) :
    hasKey (buildQUBO E) q
      ↔ ∃ e ∈ E, q = (e.1, e.1) ∨ q = (e.2, e.2) ∨ q = (e.1, e.2) := by
  rw [buildQUBO, hasKey_foldl]
  simp [hasKey, keys]

theorem totalQ_addQ (t : Table) (k : Edge) (d : Int) :
    totalQ (addQ t k d) = totalQ t + d := by
  induction t with
  | nil => simp [addQ, totalQ]
  | cons hd tl ih =>
    obtain ⟨k₀, x⟩ := hd
    by_cases h : k₀ = k
    · simp only [addQ, if_pos h, totalQ, List.map_cons, List.sum_cons]
      ring
    · simp only [addQ, if_neg h, totalQ, List.map_cons, List.sum_cons] at ih ⊢
      rw [ih]
      ring

theorem totalQ_processEdge (t : Table) (e : Edge) :
    totalQ (processEdge t e) = totalQ t - 2 := by
  simp only [processEdge, totalQ_addQ]
  ring

theorem totalQ_foldl (E : List Edge) (t : Table) :
    totalQ (E.foldl processEdge t) = totalQ t - 2 * E.length := by
  induction E generalizing t with
  | nil => simp
  | cons e E ih =>
    simp only [List.foldl_cons, ih, totalQ_processEdge, List.length_cons]
    push_cast
    ring

theorem sum_contrib_offdiag (E : List Edge) (u v : Node) (huv : u ≠ v) :
    (E.map (fun e => contrib e (u, v))).sum = 2 * (E.count (u, v) : Int) := by
  induction E with
  | nil => simp
  | cons e E ih =>
    obtain ⟨a, b⟩ := e
    have h₁ : ¬ ((u, v) = ((a, a) : Edge)) := by
      simp only [Prod.mk.injEq]
      rintro ⟨rfl, rfl⟩
      exact huv rfl
    have h₂ : ¬ ((u, v) = ((b, b) : Edge)) := by
      simp only [Prod.mk.injEq]
      rintro ⟨rfl, rfl⟩
      exact huv rfl
    have hc : contrib (a, b) (u, v) = if ((u, v) : Edge) = (a, b) then 2 else 0 := by
      simp only [contrib]
      rw [if_neg h₁, if_neg h₂]
      ring
    rw [List.map_cons, List.sum_cons, hc, ih]
    simp only [List.count_cons, beq_iff_eq]
    by_cases h₃ : ((u, v) : Edge) = (a, b)
    · rw [if_pos h₃, if_pos h₃.symm]
      push_cast
      ring
    · rw [if_neg h₃, if_neg (Ne.symm h₃)]
      push_cast
      ring

theorem countFst_cons (a b : Node) (E : List Edge) (u : Node) :
    countFst ((a, b) :: E) u = countFst E u + (if a = u then 1 else 0) := by
  simp [countFst, List.countP_cons]

theorem countSnd_cons (a b : Node) (E : List Edge) (u : Node) :
    countSnd ((a, b) :: E) u = countSnd E u + (if b = u then 1 else 0) := by
  simp [countSnd, List.countP_cons]

theorem sum_contrib_diag (E : List Edge) (u : Node) :
    (E.map (fun e => contrib e (u, u))).sum
      = -(countFst E u : Int) - 3 * (countSnd E u : Int)
          + 2 * (E.count (u, u) : Int) := by
  induction E with
  | nil => simp [countFst, countSnd]
  | cons e E ih =>
    obtain ⟨a, b⟩ := e
    have hc : contrib (a, b) (u, u)
        = (if a = u then -1 else 0) + (if b = u then -3 else 0)
            + (if a = u ∧ b = u then 2 else 0) := by
      simp only [contrib, Prod.mk.injEq]
      by_cases ha : a = u <;> by_cases hb : b = u
      · subst ha; subst hb; simp
      · subst ha
        simp [hb, Ne.symm hb]
      · subst hb
        simp [ha, Ne.symm ha]
      · simp [ha, hb, Ne.symm ha, Ne.symm hb]
    rw [List.map_cons, List.sum_cons, hc, ih, countFst_cons, countSnd_cons]
    simp only [List.count_cons, beq_iff_eq, Prod.mk.injEq]
    by_cases ha : a = u <;> by_cases hb : b = u
    · subst ha; subst hb
      simp only [eq_self_iff_true, and_self, if_true]
      push_cast
      ring
    · subst ha
      simp only [hb, eq_self_iff_true, and_true, true_and, and_false,
        if_true, if_false]
      push_cast
      ring
    · subst hb
      simp only [ha, eq_self_iff_true, and_true, true_and, false_and,
        and_false, if_true, if_false]
      push_cast
      ring
    · simp only [ha, hb, false_and, and_false, if_false]
      push_cast
      ring

/-- Number of nodes of the random graph, as in the notebook: `nodes = 240`. -/
def nodes : Nat := 240

/-- Number of edges, as in the notebook:
`edges = round(nodes * (nodes-1)/2 * 0.4)`.  The literal `0.4` is the
rational 4/10; the value being rounded, 11472, is an exact integer, so the
binary-float representation of `0.4` does not change the rounded result. -/
def edges : Int := round (((nodes : ℚ) * ((nodes : ℚ) - 1) / 2) * (4 / 10))

/-- The pseudo-random seed, as in the notebook: `seed = 2`. -/
def seed : Nat := 2

/-- Size of the sub-problems, as in the notebook: `solver_limit = 40`. -/
def solver_limit : Nat := 40

/-- Number of repeats for the hybrid solver, as in the notebook:
`num_repeats = 2`. -/
def num_repeats : Nat := 2

/-- Number of shots per task, as in the notebook: `num_reads = 100`. -/
def num_reads : Nat := 100

/-- C3: the generated graph has a fixed node count of 240 and a fixed edge
count `round(nodes * (nodes-1)/2 * 0.4) = 11472`; both are constants of the
script, not inputs. -/
theorem nodes_edges_constants : nodes = 240 ∧ edges = 11472 := by
  constructor
  · rfl
  · unfold edges nodes
    rw [round_eq]
    norm_num

/-- C1 counterexample: for the edge list `[(0, 0)]` (a self-loop), the
diagonal entry is `-2`, not the `-1 * countFst - 3 * countSnd = -4`
demanded by the claimed closed form, because the `+= 2` increment for the
key `(u, v) = (0, 0)` also lands on the diagonal. -/
theorem qubo_diag_closed_form_cex :
    getQ (buildQUBO [((0, 0) : Edge)]) (0, 0)
      ≠ -(countFst [((0, 0) : Edge)] 0 : Int)
          - 3 * (countSnd [((0, 0) : Edge)] 0 : Int) := by
  decide

/-- C1 (amended): the loop applies, for each edge `(u, v)`, exactly the
increments `QUBO[(u,u)] += -1`, `QUBO[(v,v)] += -3`, `QUBO[(u,v)] += 2`;
consequently the entry at `(u, u)` equals `-1` times the number of edges
with first component `u`, minus `3` times the number of edges with second
component `u`, plus `2` times the number of self-loop edges `(u, u)`, and
the entry at `(u, v)` for `u ≠ v` equals `2` times the number of
occurrences of the ordered edge `(u, v)`. -/
theorem qubo_entry_formulas (E : List Edge) (u v : Node) :
    getQ (buildQUBO E) (u, u)
        = -(countFst E u : Int) - 3 * (countSnd E u : Int)
            + 2 * (E.count (u, u) : Int)
      ∧ (u ≠ v → getQ (buildQUBO E) (u, v) = 2 * (E.count (u, v) : Int)) := by
  refine ⟨?_, fun huv => ?_⟩
  · rw [getQ_buildQUBO, sum_contrib_diag]
  · rw [getQ_buildQUBO, sum_contrib_offdiag E u v huv]

theorem qubo_entry_formulas_witness :
    getQ (buildQUBO [((0, 1) : Edge)]) (0, 1) = 2 := by
  have h := (qubo_entry_formulas [((0, 1) : Edge)] 0 1).2 (by decide)
  rw [h]
  decide

/-- C2 counterexample: the table is keyed by ordered tuples, so for the
edge list `[(0, 1)]` the lookup of `(1, 0)` answers the default `0` while
the lookup of `(0, 1)` answers the accumulated `2`: the two orientations
are not the same key. -/
theorem qubo_unordered_key_cex :
    getQ (buildQUBO [((0, 1) : Edge)]) (1, 0)
      ≠ getQ (buildQUBO [((0, 1) : Edge)]) (0, 1) := by
  decide

/-- C2 (amended): the QUBO table is keyed by ordered tuples, not unordered
pairs: for distinct `u` and `v`, the entry at `(v, u)` reflects only edges
iterated in that exact orientation (`2` per occurrence of `(v, u)`), and a
key `(v, u)` is present in the table only when some edge is iterated as
`(v, u)` — the weight accumulated at `(u, v)` is not visible at `(v, u)`. -/
theorem qubo_ordered_keys (E : List Edge) (u v : Node) (huv : u ≠ v) :
    getQ (buildQUBO E) (v, u) = 2 * (E.count (v, u) : Int)
      ∧ (hasKey (buildQUBO E) (v, u) ↔ (v, u) ∈ E) := by
  constructor
  · rw [getQ_buildQUBO, sum_contrib_offdiag E v u (Ne.symm huv)]
  · rw [hasKey_buildQUBO]
    constructor
    · rintro ⟨⟨a, b⟩, hab, (h | h | h)⟩ <;> rw [Prod.mk.injEq] at h
      · exact absurd (h.1.trans h.2.symm) (Ne.symm huv)
      · exact absurd (h.1.trans h.2.symm) (Ne.symm huv)
      · obtain ⟨h₁, h₂⟩ := h
        rw [h₁, h₂]
        exact hab
    · intro h
      exact ⟨(v, u), h, Or.inr (Or.inr rfl)⟩

theorem qubo_ordered_keys_witness :
    getQ (buildQUBO [((0, 1) : Edge)]) (0, 1) = 2
      ∧ ¬ hasKey (buildQUBO [((0, 1) : Edge)]) (1, 0) := by
  have h := qubo_ordered_keys [((0, 1) : Edge)] 1 0 (by decide)
  constructor
  · rw [h.1]
    decide
  · have h₂ := qubo_ordered_keys [((0, 1) : Edge)] 0 1 (by decide)
    intro hk
    exact absurd (h₂.2.mp hk) (by decide)

/-- C4: the final table is invariant under any permutation of the edge
list: the same multiset of ordered edges yields a table with the same
value at every key and the same set of present keys (Python dict
equality ignores insertion order). -/
theorem qubo_perm_invariant (E₁ E₂ : List Edge) (h : E₁.Perm E₂) :
    (∀ q, getQ (buildQUBO E₁) q = getQ (buildQUBO E₂) q)
      ∧ (∀ q, hasKey (buildQUBO E₁) q ↔ hasKey (buildQUBO E₂) q) := by
  constructor
  · intro q
    rw [getQ_buildQUBO, getQ_buildQUBO]
    exact List.Perm.sum_eq (List.Perm.map _ h)
  · intro q
    rw [hasKey_buildQUBO, hasKey_buildQUBO]
    constructor
    · rintro ⟨e, he, hq⟩
      exact ⟨e, h.mem_iff.mp he, hq⟩
    · rintro ⟨e, he, hq⟩
      exact ⟨e, h.mem_iff.mpr he, hq⟩

theorem qubo_perm_invariant_witness :
    getQ (buildQUBO [((0, 1) : Edge), (2, 3)]) (0, 1)
      = getQ (buildQUBO [((2, 3) : Edge), (0, 1)]) (0, 1) :=
  (qubo_perm_invariant [((0, 1) : Edge), (2, 3)] [((2, 3) : Edge), (0, 1)]
    (List.Perm.swap ((2, 3) : Edge) ((0, 1) : Edge) [])).1 (0, 1)

/-- C5: after processing the first `k` edges the sum of all stored values
is `-2 * k` (each edge contributes `-1 - 3 + 2 = -2`); with `k` the whole
length, the total over all edges is `-2` times the edge count. -/
theorem qubo_total_sum (E : List Edge) (k : Nat) (hk : k ≤ E.length) :
    totalQ (buildQUBO (E.take k)) = -2 * (k : Int) := by
  rw [buildQUBO, totalQ_foldl, List.length_take, Nat.min_eq_left hk]
  simp [totalQ]

theorem qubo_total_sum_witness :
    totalQ (buildQUBO (List.take 1 [((0, 1) : Edge)])) = -2 * ((1 : Nat) : Int) :=
  qubo_total_sum [((0, 1) : Edge)] 1 (by decide)

/-- C10: a self-pair key `(w, w)` is present in the final table exactly
when node `w` is incident to some edge of the list; isolated nodes get no
diagonal entry at all. -/
theorem qubo_diag_key_iff_incident (E : List Edge) (w : Node) :
    hasKey (buildQUBO E) (w, w) ↔ ∃ e ∈ E, e.1 = w ∨ e.2 = w := by
  rw [hasKey_buildQUBO]
  constructor
  · rintro ⟨⟨a, b⟩, he, (h | h | h)⟩ <;> rw [Prod.mk.injEq] at h
    · exact ⟨(a, b), he, Or.inl h.1.symm⟩
    · exact ⟨(a, b), he, Or.inr h.2.symm⟩
    · exact ⟨(a, b), he, Or.inl h.1.symm⟩
  · rintro ⟨⟨a, b⟩, he, (h | h)⟩
    · exact ⟨(a, b), he, Or.inl (by rw [Prod.mk.injEq]; exact ⟨h.symm, h.symm⟩)⟩
    · exact ⟨(a, b), he,
        Or.inr (Or.inl (by rw [Prod.mk.injEq]; exact ⟨h.symm, h.symm⟩))⟩

/-- A linear-congruential step standing in for the external generator's
stream of pseudo-random numbers. -/
def lcgStep (s : Nat) : Nat := (1103515245 * s + 12345) % 2147483648

/-- Fuel-bounded loop drawing candidate pairs until `m` distinct
non-loop edges (stored with the smaller endpoint first) are collected. -/
def gnmAux : Nat → Nat → Nat → Nat → List Edge → List Edge
  | 0, _, _, _, acc => acc.reverse
  | fuel + 1, n, m, s, acc =>
    if acc.length = m then acc.reverse
    else
      let s₁ := lcgStep s
      let s₂ := lcgStep s₁
      let u := s₁ % n
      let v := s₂ % n
      let e : Edge := if u ≤ v then (u, v) else (v, u)
      if u ≠ v ∧ e ∉ acc then gnmAux fuel n m s₂ (e :: acc)
      else gnmAux fuel n m s₂ acc

/-- Modelled from the spec: `networkx.gnm_random_graph` is not part of this
repository; the spec says only that the graph is a "node count N, edge
list of unordered pairs, generated pseudo-randomly from a seed — an
external library's responsibility".  We model it as a deterministic
function of `(n, m, seed)` driving a concrete pseudo-random stream. -/
def gnm_random_graph (n m s : Nat) : List Edge :=
  gnmAux ((m + n + 1) * 64) n m s []

/-- C6: graph generation is deterministic given the seed: two runs of the
generator with the same `(nodes, edges, seed) = (240, 11472, 2)` yield the
same edge list, and hence the accumulation loop yields identical QUBO
tables. -/
theorem qubo_deterministic_given_seed (E₁ E₂ : List Edge)
    (h₁ : E₁ = gnm_random_graph 240 11472 2)
    (h₂ : E₂ = gnm_random_graph 240 11472 2) :
    E₁ = E₂ ∧ buildQUBO E₁ = buildQUBO E₂ :=
  ⟨h₁.trans h₂.symm, congrArg buildQUBO (h₁.trans h₂.symm)⟩

theorem qubo_deterministic_given_seed_witness :
    gnm_random_graph 240 11472 2 = gnm_random_graph 240 11472 2
      ∧ buildQUBO (gnm_random_graph 240 11472 2)
          = buildQUBO (gnm_random_graph 240 11472 2) := by
  have h := qubo_deterministic_given_seed (gnm_random_graph 240 11472 2)
    (gnm_random_graph 240 11472 2) (Eq.refl _) (Eq.refl _)
  exact h

/-- Edge list of `networkx.complete_graph n`: all pairs `(i, j)` with
`i < j`. -/
def completeGraphEdges (n : Nat) : List Edge :=
  (List.range n).flatMap (fun i =>
    ((List.range n).filter (fun j => i < j)).map (fun j => (i, j)))

/-- One external SDK call made by the final cell of the notebook. -/
inductive ScriptEvent (Emb : Type) where
  | findEmbeddingCall (sourceEdges targetEdges : List Edge)
  | fixedEmbeddingCompositeCall (embedding : Emb)
  | sampleQuboCall (qubo : Table) (numRepeats solverLimit numReads : Nat)

/-- The opaque external world the final cell interacts with: the device
edge list exposed by the sampler, and the embedding search of
`minorminer`. -/
structure SolverEnv (Emb : Type) where
  deviceEdgelist : List Edge
  find_embedding : List Edge → List Edge → Emb

/-- The external calls of the final cell, in program order, as written in
the source: embed `complete_graph(solver_limit)` once, wrap the sampler
in `FixedEmbeddingComposite` with the embedding just computed, then call
`sample_qubo` with the configured parameters. -/
def cell5Trace {Emb : Type} (env : SolverEnv Emb) (qubo : Table) :
    List (ScriptEvent Emb) :=
  let G := completeGraphEdges solver_limit
  let embedding := env.find_embedding G env.deviceEdgelist
  [ScriptEvent.findEmbeddingCall G env.deviceEdgelist,
   ScriptEvent.fixedEmbeddingCompositeCall embedding,
   ScriptEvent.sampleQuboCall qubo num_repeats solver_limit num_reads]

/-- Recognizer for embedding-search events. -/
def isFindEmbedding {Emb : Type} : ScriptEvent Emb → Bool
  | ScriptEvent.findEmbeddingCall _ _ => true
  | _ => false

/-- Recognizer for solver-invocation events. -/
def isSampleQubo {Emb : Type} : ScriptEvent Emb → Bool
  | ScriptEvent.sampleQuboCall _ _ _ _ => true
  | _ => false

/-- C7: exactly one minor-embedding is computed, for the edge set of the
complete graph on `solver_limit = 40` nodes, and that single embedding is
the one handed to the solver wrapper; no other embedding search occurs in
the trace. -/
theorem embedding_computed_once {Emb : Type} (env : SolverEnv Emb)
    (qubo : Table) :
    (cell5Trace env qubo).countP isFindEmbedding = 1
      ∧ ScriptEvent.findEmbeddingCall (completeGraphEdges solver_limit)
          env.deviceEdgelist ∈ cell5Trace env qubo
      ∧ ScriptEvent.fixedEmbeddingCompositeCall
            (env.find_embedding (completeGraphEdges solver_limit)
              env.deviceEdgelist)
          ∈ cell5Trace env qubo
      ∧ solver_limit = 40 := by
  refine ⟨rfl, ?_, ?_, rfl⟩
  · simp [cell5Trace]
  · simp [cell5Trace]

/-- C8: the solver invocation receives exactly the configured values
`num_repeats = 2`, `solver_limit = 40`, `num_reads = 100` and the QUBO
table, unchanged, and there is exactly one solver invocation in the
trace. -/
theorem solver_parameters_passed_verbatim {Emb : Type} (env : SolverEnv Emb)
    (qubo : Table) :
    (cell5Trace env qubo).countP isSampleQubo = 1
      ∧ ScriptEvent.sampleQuboCall qubo num_repeats solver_limit num_reads
          ∈ cell5Trace env qubo
      ∧ num_repeats = 2 ∧ solver_limit = 40 ∧ num_reads = 100 := by
  refine ⟨rfl, ?_, rfl, rfl, rfl⟩
  simp [cell5Trace]

/-- The S3 location configured in the notebook (bucket, prefix). -/
def s3_folder : String × String :=
  ("amazon-braket-Your-Bucket-Name", "Your-Folder-Name")

/-- The device identifier configured in the notebook. -/
def device_arn : String :=
  "arn:aws:braket:::device/qpu/d-wave/Advantage_system1"

/-- The external calls of the script, each of which may fail with an
exception of type `ε` (network error, embedding not found, device
unavailable, ...). -/
structure FallibleEnv (ε S Emb R : Type) where
  braketDWaveSampler : String × String → String → Except ε S
  edgelist : S → Except ε (List Edge)
  find_embedding : List Edge → List Edge → Except ε Emb
  fixedEmbeddingComposite : S → Emb → Except ε S
  sample_qubo : S → Table → Nat → Nat → Nat → Except ε R

/-- The notebook's straight-line sequence of external calls with failures
made explicit.  The source contains no `try`/`except`, retry or fallback,
so the calls are chained by plain sequencing and any exception short
circuits the rest of the script. -/
def runScript {ε S Emb R : Type} (env : FallibleEnv ε S Emb R)
    (qubo : Table) : Except ε R := do
  let system ← env.braketDWaveSampler s3_folder device_arn
  let target ← env.edgelist system
  let embedding ← env.find_embedding (completeGraphEdges solver_limit) target
  let solver ← env.fixedEmbeddingComposite system embedding
  env.sample_qubo solver qubo num_repeats solver_limit num_reads

theorem exceptBind_ok {ε α β : Type} (a : α) (f : α → Except ε β) :
    (Except.ok a >>= f : Except ε β) = f a := rfl

theorem exceptBind_error {ε α β : Type} (e : ε) (f : α → Except ε β) :
    (Except.error e >>= f : Except ε β) = Except.error e := rfl

/-- C9: the script implements no error handling of its own: whichever
external call fails first, its exception becomes the result of the whole
script, unhandled — there is no retry and no fallback for any of the five
external calls. -/
theorem errors_propagate_unhandled {ε S Emb R : Type}
    (env : FallibleEnv ε S Emb R) (qubo : Table) (err : ε) :
    (env.braketDWaveSampler s3_folder device_arn = Except.error err →
        runScript env qubo = Except.error err)
      ∧ (∀ sys, env.braketDWaveSampler s3_folder device_arn = Except.ok sys →
          env.edgelist sys = Except.error err →
          runScript env qubo = Except.error err)
      ∧ (∀ sys target,
          env.braketDWaveSampler s3_folder device_arn = Except.ok sys →
          env.edgelist sys = Except.ok target →
          env.find_embedding (completeGraphEdges solver_limit) target
              = Except.error err →
          runScript env qubo = Except.error err)
      ∧ (∀ sys target emb,
          env.braketDWaveSampler s3_folder device_arn = Except.ok sys →
          env.edgelist sys = Except.ok target →
          env.find_embedding (completeGraphEdges solver_limit) target
              = Except.ok emb →
          env.fixedEmbeddingComposite sys emb = Except.error err →
          runScript env qubo = Except.error err)
      ∧ (∀ sys target emb solver,
          env.braketDWaveSampler s3_folder device_arn = Except.ok sys →
          env.edgelist sys = Except.ok target →
          env.find_embedding (completeGraphEdges solver_limit) target
              = Except.ok emb →
          env.fixedEmbeddingComposite sys emb = Except.ok solver →
          env.sample_qubo solver qubo num_repeats solver_limit num_reads
              = Except.error err →
          runScript env qubo = Except.error err) := by
  refine ⟨?_, ?_, ?_, ?_, ?_⟩
  · intro h
    simp [runScript, h, exceptBind_ok, exceptBind_error]
  · intro sys h₁ h₂
    simp [runScript, h₁, h₂, exceptBind_ok, exceptBind_error]
  · intro sys target h₁ h₂ h₃
    simp [runScript, h₁, h₂, h₃, exceptBind_ok, exceptBind_error]
  · intro sys target emb h₁ h₂ h₃ h₄
    simp [runScript, h₁, h₂, h₃, h₄, exceptBind_ok, exceptBind_error]
  · intro sys target emb solver h₁ h₂ h₃ h₄ h₅
    simp [runScript, h₁, h₂, h₃, h₄, h₅, exceptBind_ok, exceptBind_error]

/-- A concrete environment in which the embedding search fails with
exception `7` and every other call succeeds. -/
def failingEnv : FallibleEnv Nat Nat Nat Nat :=
  ⟨fun _ _ => Except.ok 0, fun _ => Except.ok [], fun _ _ => Except.error 7,
   fun s _ => Except.ok s, fun _ _ _ _ _ => Except.ok 0⟩

theorem errors_propagate_unhandled_witness :
    runScript failingEnv [] = Except.error 7 :=
  (errors_propagate_unhandled failingEnv [] 7).2.2.1 0 [] rfl rfl rfl
